import Mathlib

/-!
Verification development for the tree-comparison engine of the
codebase-compass repository (src/analyzer.py, with the historical variant
src/compass_analyzer.py).

The Python code is shallowly embedded as executable Lean definitions:

* relative paths are manipulated both as strings (as the code does) and as
  segment lists (for traversal), joined with forward slashes; the modelled
  platform is POSIX, where os.sep is the forward slash;
* the file system is a finite immutable tree (one consistent snapshot):
  a file carries its byte size, its byte content and a readability flag,
  a directory carries a name-ordered child list;
* the SHA-256 function is an explicit parameter (hash); the code feeds each
  file through the hash in 8192-byte chunks and compares hexdigests, which
  observably equals comparing the digests of the two full byte contents,
  so the model applies the hash to the whole content and compares results;
* Python exceptions (FileNotFoundError, OSError) are modelled with Except;
  the try/except wrapper that converts any such failure to False is the
  final match in are_files_identical.
-/

/-- The path separator of the modelled platform (POSIX). -/
def osSep : Char := '/'

/-- Model of Python str.replace(os.sep, '/') for a one-character separator:
each separator character is replaced by a forward slash. On POSIX this is
the identity map. -/
def normalizeSep (s : String) : String :=
  String.mk (s.data.map fun c => if c = osSep then '/' else c)

/-- Characters of os.path.basename of a POSIX path: everything after the
last forward slash. -/
def basenameChars (l : List Char) : List Char :=
  (l.reverse.takeWhile fun c => c ≠ '/').reverse

/-- Model of os.path.basename on POSIX paths. -/
def basenameStr (s : String) : String :=
  String.mk (basenameChars s.data)

/-- Characters of the extension component of os.path.splitext on POSIX.
posixpath splits at the last dot of the base name provided some non-dot
character of the base name precedes that dot; leading dots alone never
start an extension. Equivalently: strip the leading dots of the base name;
if a dot remains, the extension runs from the last dot to the end,
otherwise it is empty. -/
def splitextExtChars (l : List Char) : List Char :=
  let b := basenameChars l
  let rem := b.dropWhile fun c => c = '.'
  if rem.contains '.' then
    '.' :: (rem.reverse.takeWhile fun c => c ≠ '.').reverse
  else
    []

/-- The extension component of os.path.splitext, as a string. -/
def splitextExt (s : String) : String :=
  String.mk (splitextExtChars s.data)

/-- Join path segments with forward slashes; mirrors the chain of
os.path.join calls the code performs on relative paths (joining the empty
relative root with a name yields the bare name). -/
def joinSegs (segs : List String) : String :=
  String.intercalate "/" segs

/-- True when a pattern contains one of the glob metacharacters that
analyzer.py tests for when partitioning the ignore patterns. -/
def hasGlobMeta (p : String) : Bool :=
  p.data.contains '*' || p.data.contains '?' || p.data.contains '['

/-- Scan for the closing bracket of a glob character class, returning the
class body and the remaining pattern; none when the class is unterminated.
Mirrors the closing-bracket scan in fnmatch.translate. -/
def findClose : List Char → Option (List Char × List Char)
  | [] => none
  | c :: rest =>
    if c = ']' then some ([], rest)
    else
      match findClose rest with
      | none => none
      | some (b, r) => some (c :: b, r)

/-- After the optional leading negation of a character class, a closing
bracket in first position is part of the class body (fnmatch.translate
advances over it before scanning for the real closing bracket). -/
def ccAfterNeg (t : List Char) : Option (List Char × List Char) :=
  match t with
  | ']' :: r =>
    match findClose r with
    | none => none
    | some (b, rest) => some (']' :: b, rest)
  | _ => findClose t

/-- Parse a glob character class appearing right after an opening bracket:
returns (negated, body, rest of pattern), or none when no closing bracket
exists, in which case fnmatch treats the opening bracket as a literal. -/
def ccParse (ps : List Char) : Option (Bool × List Char × List Char) :=
  match ps with
  | '!' :: t =>
    match ccAfterNeg t with
    | none => none
    | some (b, rest) => some (true, b, rest)
  | _ =>
    match ccAfterNeg ps with
    | none => none
    | some (b, rest) => some (false, b, rest)

/-- Membership of a character in a glob character-class body, with x-y
ranges (a dash with characters on both sides) compared by code point and
literal dashes at the edges, as fnmatch.translate produces. -/
def ccMatch : List Char → Char → Bool
  | [], _ => false
  | a :: '-' :: b :: rest, c =>
    (decide (a ≤ c) && decide (c ≤ b)) || ccMatch rest c
  | a :: rest, c => (a == c) || ccMatch rest c

/-- All suffixes of a list, longest first, ending with the empty suffix. -/
def suffixesOf : List α → List (List α)
  | [] => [[]]
  | a :: t => (a :: t) :: suffixesOf t

/-- Fuel-indexed shell-glob matcher over character lists, anchored to the
whole string, with the semantics of Python fnmatch.translate: a star
matches any run of characters, a question mark one character, a bracketed
class one character of the class (leading exclamation mark negates), and
an unterminated class makes the opening bracket literal. Every recursive
call strictly shortens the pattern, so fuel equal to the pattern length
plus one always suffices. -/
def globMatchAux : Nat → List Char → List Char → Bool
  | 0, _, _ => false
  | _ + 1, [], s => s.isEmpty
  | n + 1, '*' :: ps, s => (suffixesOf s).any fun t => globMatchAux n ps t
  | n + 1, '?' :: ps, s =>
    match s with
    | [] => false
    | _ :: s1 => globMatchAux n ps s1
  | n + 1, '[' :: ps, s =>
    match ccParse ps with
    | none =>
      match s with
      | [] => false
      | c :: s1 => (c == '[') && globMatchAux n ps s1
    | some (neg, body, rest) =>
      match s with
      | [] => false
      | c :: s1 => (ccMatch body c != neg) && globMatchAux n rest s1
  | n + 1, p :: ps, s =>
    match s with
    | [] => false
    | c :: s1 => (p == c) && globMatchAux n ps s1

/-- Model of fnmatch.fnmatch(name, pat) on POSIX, where os.path.normcase
is the identity: anchored shell-glob matching of the whole name. -/
def fnmatch (name pat : String) : Bool :=
  globMatchAux (pat.data.length + 1) pat.data name.data

namespace Analyzer

/-- Embedding of is_ignored from src/analyzer.py (lines 19-46): normalize
separators, then test, in order, full path against the literal set, base
name against the literal set, a nonempty splitext extension against the
ignored extensions, and finally each wildcard pattern with fnmatch. -/
def is_ignored (relative_path : String) (simple_ignore_set wildcard_ignore_list ignored_extensions : List String) : Bool :=
  let path_to_check := normalizeSep relative_path
  if simple_ignore_set.contains path_to_check then true
  else
    let basename := basenameStr path_to_check
    if simple_ignore_set.contains basename then true
    else
      let extension := splitextExt basename
      if (!(extension == "")) && ignored_extensions.contains extension then true
      else wildcard_ignore_list.any fun pat => fnmatch path_to_check pat

end Analyzer

namespace CompassAnalyzer

/-- Embedding of is_ignored from src/compass_analyzer.py (lines 54-58),
the historical naive variant: literal membership of the given path segment
in the single pattern list, then the nonempty-extension check. It performs
no wildcard matching and no base-name check. -/
def is_ignored (path_segment : String) (ignored_patterns ignored_extensions : List String) : Bool :=
  if ignored_patterns.contains path_segment then true
  else
    let extension := splitextExt path_segment
    if (!(extension == "")) && ignored_extensions.contains extension then true
    else false

end CompassAnalyzer

/-- Claim-side restatement of the Ignore Matcher contract as literally
written in the spec and claim C2: a disjunction of the four stages, with
the extension stage phrased as bare membership of the splitext extension
in the ignored-extensions set. -/
def is_ignored_spec (relative_path : String) (simple_ignore_set wildcard_ignore_list ignored_extensions : List String) : Bool :=
  let path_to_check := normalizeSep relative_path
  let basename := basenameStr path_to_check
  simple_ignore_set.contains path_to_check ||
    simple_ignore_set.contains basename ||
      ignored_extensions.contains (splitextExt basename) ||
        wildcard_ignore_list.any fun pat => fnmatch path_to_check pat

/-- Amended claim-side Ignore Matcher contract: as is_ignored_spec, but the
extension stage requires the extension to be nonempty, matching the guard
in the code. -/
def is_ignored_spec_amended (relative_path : String) (simple_ignore_set wildcard_ignore_list ignored_extensions : List String) : Bool :=
  let path_to_check := normalizeSep relative_path
  let basename := basenameStr path_to_check
  simple_ignore_set.contains path_to_check ||
    simple_ignore_set.contains basename ||
      ((!(splitextExt basename == "")) && ignored_extensions.contains (splitextExt basename)) ||
        wildcard_ignore_list.any fun pat => fnmatch path_to_check pat

/-- The literal-name bucket computed in generate_tree_comparison (line 73):
patterns free of glob metacharacters. The code builds a set; membership
tests coincide with membership in this list. -/
def simpleOf (patterns : List String) : List String :=
  patterns.filter fun p => !hasGlobMeta p

/-- The wildcard bucket computed in generate_tree_comparison (line 74):
patterns not found in the literal-name bucket. -/
def wildOf (patterns : List String) : List String :=
  patterns.filter fun p => !(simpleOf patterns).contains p

/-- One file of the modelled file system: its stat size, its byte content
and whether opening it for reading succeeds. -/
structure FileData where
  size : Nat
  content : List Nat
  readable : Bool

/-- A snapshot of a file-system subtree: a file leaf or a directory with
its named children in enumeration order. -/
inductive FSTree where
  | file : FileData → FSTree
  | dir : List (String × FSTree) → FSTree

/-- Find a directory entry by name (names are unique in a real directory,
so the first match is the entry). -/
def lookupChild (n : String) : List (String × FSTree) → Option FSTree
  | [] => none
  | (m, t) :: rest => if m == n then some t else lookupChild n rest

/-- Resolve a relative path, given as segments, inside a snapshot; none
models a path for which os.path.exists is False (including paths whose
intermediate segment is a file). -/
def lookupFS : FSTree → List String → Option FSTree
  | t, [] => some t
  | FSTree.file _, _ :: _ => none
  | FSTree.dir cs, n :: rest =>
    match lookupChild n cs with
    | none => none
    | some t => lookupFS t rest

/-- Model of os.path.getsize: raises (error) on a missing path; a
directory has a stat size too (a block-size constant in the model, whose
exact value is immaterial because opening a directory for reading
fails). -/
def getsize (t : FSTree) (p : List String) : Except Unit Nat :=
  match lookupFS t p with
  | none => Except.error ()
  | some (FSTree.file d) => Except.ok d.size
  | some (FSTree.dir _) => Except.ok 4096

/-- Model of open(path, 'rb') followed by reading the stream to its end
(the code reads 8192-byte chunks; their concatenation is the full
content): fails on a missing path, a directory, or an unreadable file,
covering FileNotFoundError, IsADirectoryError and PermissionError, all of
which the caller catches. -/
def readBytes (t : FSTree) (p : List String) : Except Unit (List Nat) :=
  match lookupFS t p with
  | some (FSTree.file d) =>
    if d.readable then Except.ok d.content else Except.error ()
  | _ => Except.error ()

namespace Analyzer

/-- Embedding of are_files_identical from src/analyzer.py (lines 48-62),
with the snapshot each path is resolved in passed explicitly and SHA-256
as the hash parameter: compare stat sizes first, and only when they agree
read both files fully and compare digests of the full contents (equality
of the two hexdigests is equality of the two digests). The catch-all arms
are the except clause that converts FileNotFoundError and OSError into
False. -/
def are_files_identical (hash : List Nat → List Nat) (fs1 : FSTree) (p1 : List String) (fs2 : FSTree) (p2 : List String) : Bool :=
  match getsize fs1 p1, getsize fs2 p2 with
  | Except.ok s1, Except.ok s2 =>
    if s1 ≠ s2 then false
    else
      match readBytes fs1 p1, readBytes fs2 p2 with
      | Except.ok c1, Except.ok c2 => hash c1 == hash c2
      | _, _ => false
  | _, _ => false

end Analyzer

/-- Claim-side status rule for one retained node, exactly as the spec and
claim C1 word it: missing when the target path does not exist, identical
for a directory (existence only), identical under quick scan, and
otherwise the verdict of the File Equality Checker. -/
def status_spec (hash : List Nat → List Nat) (base target : FSTree) (quick_scan is_dir : Bool) (p : List String) : String :=
  if (lookupFS target p).isNone then "missing"
  else if is_dir then "identical"
  else if quick_scan then "identical"
  else if Analyzer.are_files_identical hash base p target p then "identical"
  else "modified"

/-- Value of one tree_dict entry: None for a file, a nested dict for a
directory (spec section 9 reframes the nullable-value convention of the
Python dict as this tagged variant). An entry list plays the role of one
dict level, keys being unique on a real file system. -/
inductive TNode where
  | file : TNode
  | dir : List (String × TNode) → TNode

/-- The is-file flag of an entry value: d[x] is None. -/
def isFileT : TNode → Bool
  | TNode.file => true
  | TNode.dir _ => false

/-- The is-directory flag of an entry value: d[x] is not None. -/
def isDirT (t : TNode) : Bool := !(isFileT t)

/-- Whether a file-system node is a directory (os.walk lists it in dirs
rather than files). -/
def isDirFS : FSTree → Bool
  | FSTree.file _ => false
  | FSTree.dir _ => true

/-- Lexicographic less-or-equal on character lists by code point: the
order in which Python compares the lowered name strings. -/
def charListLe : List Char → List Char → Bool
  | [], _ => true
  | _ :: _, [] => false
  | a :: as, b :: bs =>
    if a < b then true
    else if b < a then false
    else charListLe as bs

/-- The sort-key comparison of the comparison pass: sorted(d.keys(),
key=lambda x: (d[x] is None, x.lower())) orders entries by the tuple
(is-file flag with False before True, case-lowered name), compared
lexicographically. -/
def entryLe (a b : String × TNode) : Bool :=
  if isFileT a.2 = isFileT b.2 then charListLe a.1.toLower.data b.1.toLower.data
  else isFileT b.2

/-- Stable insertion: the new element goes after every accumulated element
less-or-equal to it, reproducing the placement of Python's stable sort. -/
def pyInsert (le : α → α → Bool) (a : α) : List α → List α
  | [] => [a]
  | b :: l => if le b a then b :: pyInsert le a l else a :: b :: l

/-- Stable sort by successive insertion, processing the input left to
right: for a total preorder le this computes the unique stable ascending
reordering, the list Python's sorted() returns. -/
def pySort (le : α → α → Bool) (l : List α) : List α :=
  l.foldl (fun acc x => pyInsert le x acc) []

theorem sizeOf_pyInsert [SizeOf α] (le : α → α → Bool) (a : α) (l : List α) :
    sizeOf (pyInsert le a l) = 1 + sizeOf a + sizeOf l := by
  induction l with
  | nil => simp [pyInsert]
  | cons b t ih =>
    by_cases h : le b a = true
    · simp [pyInsert, h, ih]
      try omega
    · simp [pyInsert, h]
      try omega

theorem sizeOf_pySort_aux [SizeOf α] (le : α → α → Bool) (l acc : List α) :
    sizeOf (List.foldl (fun acc x => pyInsert le x acc) acc l) + 1
      = sizeOf acc + sizeOf l := by
  induction l generalizing acc with
  | nil => simp
  | cons x t ih =>
    simp only [List.foldl_cons]
    rw [ih, sizeOf_pyInsert]
    simp
    omega

theorem sizeOf_pySort [SizeOf α] (le : α → α → Bool) (l : List α) :
    sizeOf (pySort le l) = sizeOf l := by
  have h := sizeOf_pySort_aux le l []
  unfold pySort
  simp at h
  omega

namespace Analyzer

/-- Embedding of the os.walk loop of generate_tree_comparison
(src/analyzer.py lines 76-98) fused with the construction of tree_dict:
each directory of the base tree is visited top down; child directories
and files whose relative path satisfies is_ignored are pruned before any
descent; the retained directories are inserted first and recursed into,
the retained files inserted after them, exactly as the loop body does at
each visited directory. Walking a file root yields nothing, as os.walk
does. -/
def walk_tree (simple wild exts : List String) (rel : List String) : FSTree → List (String × TNode)
  | FSTree.file _ => []
  | FSTree.dir cs =>
    (cs.attach.filterMap fun e =>
      match e with
      | ⟨(n, c), hmem⟩ =>
        if isDirFS c && !(is_ignored (joinSegs (rel ++ [n])) simple wild exts) then
          some (n, TNode.dir (walk_tree simple wild exts (rel ++ [n]) c))
        else none) ++
      (cs.filterMap fun e =>
        if (!(isDirFS e.2)) && !(is_ignored (joinSegs (rel ++ [e.1])) simple wild exts) then
          some (e.1, TNode.file)
        else none)
termination_by t => sizeOf t
decreasing_by
  have hm := List.sizeOf_lt_of_mem hmem
  simp at hm ⊢
  try omega

end Analyzer

/-- One output tuple of build_data_with_comparison:
(prefix, connector, name, status key). -/
structure Record where
  indent : String
  connector : String
  name : String
  status : String

namespace Analyzer

/-- Embedding of the enumeration loop of build_data_with_comparison
(src/analyzer.py lines 100-130), applied to an already sorted entry list:
emit the record of each entry — its status key computed by the nested
conditionals of lines 108-122 — then the block of its children (sorted
with the same key before the recursive visit, as the recursive call into
build_data_with_comparison sorts), then the remaining siblings. The
connector and the prefix extension depend on whether the entry is the
last of its level. -/
def build_rows (hash : List Nat → List Nat) (base target : FSTree) (quick_scan : Bool) : List (String × TNode) → String → List String → List Record
  | [], _, _ => []
  | (name, t) :: rest, pre, cur =>
    ⟨pre, if rest.isEmpty then "└── " else "├── ", name,
      if (lookupFS target (cur ++ [name])).isNone then "missing"
      else if isDirT t then "identical"
      else if quick_scan then "identical"
      else if are_files_identical hash base (cur ++ [name]) target (cur ++ [name]) then "identical"
      else "modified"⟩ ::
      ((match t with
        | TNode.file => []
        | TNode.dir cs =>
          build_rows hash base target quick_scan (pySort entryLe cs)
            (pre ++ (if rest.isEmpty then "    " else "│   ")) (cur ++ [name])) ++
        build_rows hash base target quick_scan rest pre cur)
termination_by l _ _ => sizeOf l
decreasing_by
  · rw [sizeOf_pySort]
    simp
    try omega
  · simp
    try omega

/-- Embedding of build_data_with_comparison (src/analyzer.py lines
100-130): sort the entries of the current dict level with Python's stable
sort under the tuple key, then run the enumeration loop. -/
def build_data_with_comparison (hash : List Nat → List Nat) (base target : FSTree) (quick_scan : Bool) (d : List (String × TNode)) (pre : String) (cur : List String) : List Record :=
  build_rows hash base target quick_scan (pySort entryLe d) pre cur

end Analyzer

/-- The three counters of status_counts. -/
structure StatusCounts where
  identical : Nat
  modified : Nat
  missing : Nat

/-- status_counts[status_key] += 1. The emitted status key is always one
of the three initialized keys, so the fall-through arm (a KeyError in
Python) is unreachable. -/
def bumpCount (c : StatusCounts) (k : String) : StatusCounts :=
  if k == "identical" then ⟨c.identical + 1, c.modified, c.missing⟩
  else if k == "modified" then ⟨c.identical, c.modified + 1, c.missing⟩
  else if k == "missing" then ⟨c.identical, c.modified, c.missing + 1⟩
  else c

/-- The counters accumulated over the emitted records in emission order,
from the zero initialization of line 70; the code increments at each
append, which is the same fold over the final record list. -/
def statusCountsOf (rs : List Record) : StatusCounts :=
  rs.foldl (fun c r => bumpCount c r.status) ⟨0, 0, 0⟩

namespace Analyzer

/-- Embedding of generate_tree_comparison (src/analyzer.py lines 64-133):
partition the patterns into the literal set and the wildcard list, walk
and prune the base tree into the nested dict, run the comparison pass
from the root with empty prefix and empty relative path, and return the
record list together with the accumulated counters. -/
def generate_tree_comparison (hash : List Nat → List Nat) (base_root target_root : FSTree) (ignored_patterns ignored_extensions : List String) (quick_scan : Bool) : List Record × StatusCounts :=
  let simple_ignore_set := simpleOf ignored_patterns
  let wildcard_ignore_list := wildOf ignored_patterns
  let tree_dict := walk_tree simple_ignore_set wildcard_ignore_list ignored_extensions [] base_root
  let tree_data := build_data_with_comparison hash base_root target_root quick_scan tree_dict "" []
  (tree_data, statusCountsOf tree_data)

end Analyzer

/-- The nodes the comparison pass visits, in visitation order, as
(relative path, is-directory) pairs: each sorted entry, then its
recursively visited children (sorted with the same key), then the
remaining siblings. -/
def visit_nodes : List (String × TNode) → List String → List (List String × Bool)
  | [], _ => []
  | (name, t) :: rest, cur =>
    (cur ++ [name], isDirT t) ::
      ((match t with
        | TNode.file => []
        | TNode.dir cs => visit_nodes (pySort entryLe cs) (cur ++ [name])) ++
        visit_nodes rest cur)
termination_by l _ => sizeOf l
decreasing_by
  · rw [sizeOf_pySort]
    simp
    try omega
  · simp
    try omega

/-- Number of nodes of a nested entry list. -/
def countNodes : List (String × TNode) → Nat
  | [] => 0
  | (_, TNode.file) :: rest => 1 + countNodes rest
  | (_, TNode.dir cs) :: rest => 1 + countNodes cs + countNodes rest

/-- The contiguous output block of one visited sibling: its own record —
with the claim-side status rule — followed by the records of its whole
subtree. -/
def nodeBlock (hash : List Nat → List Nat) (base target : FSTree) (quick_scan : Bool) (name : String) (t : TNode) (last : Bool) (pre : String) (cur : List String) : List Record :=
  ⟨pre, if last then "└── " else "├── ", name,
    status_spec hash base target quick_scan (isDirT t) (cur ++ [name])⟩ ::
    (match t with
     | TNode.file => []
     | TNode.dir cs =>
       Analyzer.build_rows hash base target quick_scan (pySort entryLe cs)
         (pre ++ (if last then "    " else "│   ")) (cur ++ [name]))

/-- The sibling presentation order of the claim: directories strictly
before files, and case-insensitive name order inside each of the two
groups. -/
def specSiblingLe (a b : String × TNode) : Prop :=
  (isFileT a.2 = false ∧ isFileT b.2 = true) ∨
    (isFileT a.2 = isFileT b.2 ∧ charListLe a.1.toLower.data b.1.toLower.data = true)

theorem normalizeSep_eq (s : String) : normalizeSep s = s := by
  unfold normalizeSep osSep
  have h : (fun c : Char => if c = '/' then '/' else c) = fun c => c := by
    funext c
    by_cases hc : c = '/' <;> simp [hc]
  rw [h]
  cases s with
  | mk data => simp

theorem mk_data_eq (s : String) : String.mk s.data = s := by
  cases s
  rfl

theorem takeWhile_ne_eq_self (l : List Char) (hl : ∀ c ∈ l, c ≠ '/') :
    (l.takeWhile fun c => c ≠ '/') = l := by
  induction l with
  | nil => rfl
  | cons a t ih =>
    have ha : a ≠ '/' := hl a (by simp)
    have ht : (t.takeWhile fun c => c ≠ '/') = t := ih fun c hc => hl c (by simp [hc])
    simp [List.takeWhile_cons, ha, ht]
    exact fun c hc => hl c (by simp [hc])

theorem ite_chain_or (b1 b2 b3 b4 : Bool) :
    (if b1 then true else if b2 then true else if b3 then true else b4)
      = (b1 || b2 || b3 || b4) := by
  cases b1 <;> cases b2 <;> cases b3 <;> simp

theorem ite_chain_or2 (b1 b3 : Bool) :
    (if b1 then true else if b3 then true else false) = (b1 || b3) := by
  cases b1 <;> cases b3 <;> simp

theorem basenameStr_no_sep (p : String) (hp : p.data.contains '/' = false) :
    basenameStr p = p := by
  unfold basenameStr basenameChars
  have hmem : ∀ c ∈ p.data.reverse, c ≠ '/' := by
    intro c hc hcontra
    rw [List.mem_reverse] at hc
    subst hcontra
    have := List.elem_iff.mpr hc
    rw [List.contains] at hp
    rw [hp] at this
    cases this
  rw [takeWhile_ne_eq_self p.data.reverse hmem, List.reverse_reverse, mk_data_eq]

/-- Claim C2 fails on the code at a path whose base name has no splitext
extension when the empty string belongs to the ignored-extensions set: the
code's extension stage is guarded by nonemptiness, the claim's disjunction
is not. -/
theorem c2_counterexample :
    Analyzer.is_ignored "Makefile" [] [] [""] = false ∧
      is_ignored_spec "Makefile" [] [] [""] = true := by
  constructor <;> decide

/-- Claim C2 as amended: is_ignored returns true exactly when the full
normalized path or the base name is in the literal set, or the base name
has a NONEMPTY extension belonging to the ignored-extensions set, or some
wildcard pattern matches the normalized path under shell-glob semantics;
it is a pure function (a Lean function of its four arguments). -/
theorem c2_amended_staged_disjunction (p : String) (simple wild exts : List String) :
    Analyzer.is_ignored p simple wild exts = is_ignored_spec_amended p simple wild exts :=
  ite_chain_or (simple.contains (normalizeSep p))
    (simple.contains (basenameStr (normalizeSep p)))
    ((!(splitextExt (basenameStr (normalizeSep p)) == "")) &&
      exts.contains (splitextExt (basenameStr (normalizeSep p))))
    (wild.any fun pat => fnmatch (normalizeSep p) pat)

/-- Claim C10: when the base name has no splitext extension, the extension
stage of is_ignored never fires — even if the empty string is a member of
the ignored-extensions set — so the result is exactly the disjunction of
the literal-name and wildcard stages. -/
theorem c10_empty_extension_stage (p : String) (simple wild exts : List String)
    (h : splitextExt (basenameStr (normalizeSep p)) = "") :
    Analyzer.is_ignored p simple wild exts
      = (simple.contains (normalizeSep p) ||
          simple.contains (basenameStr (normalizeSep p)) ||
            wild.any fun pat => fnmatch (normalizeSep p) pat) := by
  have e1 := ite_chain_or (simple.contains (normalizeSep p))
    (simple.contains (basenameStr (normalizeSep p)))
    ((!(splitextExt (basenameStr (normalizeSep p)) == "")) &&
      exts.contains (splitextExt (basenameStr (normalizeSep p))))
    (wild.any fun pat => fnmatch (normalizeSep p) pat)
  refine Eq.trans e1 ?_
  rw [h]
  cases simple.contains (normalizeSep p) <;>
    cases simple.contains (basenameStr (normalizeSep p)) <;>
      cases wild.any fun pat => fnmatch (normalizeSep p) pat <;> rfl

theorem c10_empty_extension_stage_witness :
    splitextExt (basenameStr (normalizeSep ".gitignore")) = "" ∧
      Analyzer.is_ignored ".gitignore" [] [] [""]
        = (List.contains ([] : List String) (normalizeSep ".gitignore") ||
            List.contains ([] : List String) (basenameStr (normalizeSep ".gitignore")) ||
              List.any ([] : List String) fun pat => fnmatch (normalizeSep ".gitignore") pat) :=
  ⟨by decide, c10_empty_extension_stage ".gitignore" [] [] [""] (by decide)⟩

/-- Claim C4 fails on the code: with the single pattern *.log, the
partitioned matcher of analyzer.py glob-matches debug.log while the naive
matcher of compass_analyzer.py, which never runs fnmatch, does not. -/
theorem c4_counterexample :
    Analyzer.is_ignored "debug.log" (simpleOf ["*.log"]) (wildOf ["*.log"]) [] = true ∧
      CompassAnalyzer.is_ignored "debug.log" ["*.log"] [] = false := by
  constructor <;> decide

/-- Claim C4 as amended: the partitioned matcher of analyzer.py and the
naive matcher of compass_analyzer.py agree whenever no configured pattern
contains a glob metacharacter and the tested path has no separator (so the
wildcard bucket is empty and the base-name stage repeats the full-path
stage); in general the two differ. -/
theorem c4_amended_agreement (patterns exts : List String) (p : String)
    (hpat : ∀ q ∈ patterns, hasGlobMeta q = false)
    (hp : p.data.contains '/' = false) :
    Analyzer.is_ignored p (simpleOf patterns) (wildOf patterns) exts
      = CompassAnalyzer.is_ignored p patterns exts := by
  have hs : simpleOf patterns = patterns := by
    unfold simpleOf
    apply List.filter_eq_self.mpr
    intro a ha
    simp [hpat a ha]
  have hw : wildOf patterns = [] := by
    unfold wildOf
    rw [hs]
    apply List.filter_eq_nil_iff.mpr
    intro a ha
    simpa using ha
  have hb : basenameStr (normalizeSep p) = p := by
    rw [normalizeSep_eq]
    exact basenameStr_no_sep p hp
  rw [hs, hw]
  have e1 := ite_chain_or (patterns.contains (normalizeSep p))
    (patterns.contains (basenameStr (normalizeSep p)))
    ((!(splitextExt (basenameStr (normalizeSep p)) == "")) &&
      exts.contains (splitextExt (basenameStr (normalizeSep p))))
    (([] : List String).any fun pat => fnmatch (normalizeSep p) pat)
  have e2 := ite_chain_or2 (patterns.contains p)
    ((!(splitextExt p == "")) && exts.contains (splitextExt p))
  refine Eq.trans (Eq.trans e1 ?_) e2.symm
  rw [hb, normalizeSep_eq]
  cases patterns.contains p <;>
    cases (!(splitextExt p == "")) && exts.contains (splitextExt p) <;> rfl

theorem c4_amended_agreement_witness :
    (∀ q ∈ ["node_modules"], hasGlobMeta q = false) ∧
      (String.data "node_modules").contains '/' = false ∧
        Analyzer.is_ignored "node_modules" (simpleOf ["node_modules"]) (wildOf ["node_modules"]) [".log"]
          = CompassAnalyzer.is_ignored "node_modules" ["node_modules"] [".log"] :=
  ⟨by decide, by decide,
    c4_amended_agreement ["node_modules"] [".log"] "node_modules" (by decide) (by decide)⟩

/-- Claim C7: when both paths resolve to files, a size mismatch makes
are_files_identical false for every hash function, independently of the
contents and of readability (nothing is read or hashed); with equal sizes
and both files readable, the result is true exactly when the digests of
the two full contents are equal. -/
theorem c7_size_shortcircuit_and_digest (hash : List Nat → List Nat)
    (base target : FSTree) (p1 p2 : List String) (d1 d2 : FileData)
    (h1 : lookupFS base p1 = some (FSTree.file d1))
    (h2 : lookupFS target p2 = some (FSTree.file d2)) :
    (d1.size ≠ d2.size → Analyzer.are_files_identical hash base p1 target p2 = false) ∧
      (d1.size = d2.size → d1.readable = true → d2.readable = true →
        (Analyzer.are_files_identical hash base p1 target p2 = true ↔
          hash d1.content = hash d2.content)) := by
  unfold Analyzer.are_files_identical getsize readBytes
  rw [h1, h2]
  constructor
  · intro hne
    simp [hne]
  · intro heq hr1 hr2
    simp [heq, hr1, hr2]

theorem c7_size_shortcircuit_and_digest_witness :
    lookupFS (FSTree.dir [("a", FSTree.file ⟨1, [7], true⟩)]) ["a"]
        = some (FSTree.file ⟨1, [7], true⟩) ∧
      lookupFS (FSTree.dir [("a", FSTree.file ⟨2, [7, 7], true⟩)]) ["a"]
        = some (FSTree.file ⟨2, [7, 7], true⟩) ∧
      (1 : Nat) ≠ 2 ∧
      Analyzer.are_files_identical (fun l => l)
        (FSTree.dir [("a", FSTree.file ⟨1, [7], true⟩)]) ["a"]
        (FSTree.dir [("a", FSTree.file ⟨2, [7, 7], true⟩)]) ["a"] = false :=
  ⟨rfl, rfl, by decide,
    (c7_size_shortcircuit_and_digest (fun l => l)
      (FSTree.dir [("a", FSTree.file ⟨1, [7], true⟩)])
      (FSTree.dir [("a", FSTree.file ⟨2, [7, 7], true⟩)])
      ["a"] ["a"] ⟨1, [7], true⟩ ⟨2, [7, 7], true⟩ rfl rfl).1 (by decide)⟩

/-- Claim C8: any stat or read failure on either path makes
are_files_identical false — the code catches the exception instead of
propagating it, which the total Lean model renders as returning false —
and consequently, in deep-scan mode, a file node whose target path exists
but whose bytes cannot be read is classified modified; no failure of a
single file aborts the comparison, every function of the model being
total. -/
theorem c8_unreadable_degrades (hash : List Nat → List Nat)
    (base target : FSTree) (p : List String)
    (hfail : getsize base p = Except.error () ∨ getsize target p = Except.error () ∨
      readBytes base p = Except.error () ∨ readBytes target p = Except.error ()) :
    Analyzer.are_files_identical hash base p target p = false ∧
      ((lookupFS target p).isSome = true →
        status_spec hash base target false false p = "modified") := by
  have hfalse : Analyzer.are_files_identical hash base p target p = false := by
    unfold Analyzer.are_files_identical
    rcases hfail with h | h | h | h
    · rw [h]
    · rw [h]
      cases getsize base p <;> rfl
    · cases hg1 : getsize base p with
      | error e => rfl
      | ok s1 =>
        cases hg2 : getsize target p with
        | error e => rfl
        | ok s2 =>
          show (if s1 ≠ s2 then false
            else
              match readBytes base p, readBytes target p with
              | Except.ok c1, Except.ok c2 => hash c1 == hash c2
              | _, _ => false) = false
          rcases eq_or_ne s1 s2 with hs | hs
          · rw [if_neg (by simp [hs]), h]
          · rw [if_pos hs]
    · cases hg1 : getsize base p with
      | error e => rfl
      | ok s1 =>
        cases hg2 : getsize target p with
        | error e => rfl
        | ok s2 =>
          show (if s1 ≠ s2 then false
            else
              match readBytes base p, readBytes target p with
              | Except.ok c1, Except.ok c2 => hash c1 == hash c2
              | _, _ => false) = false
          rcases eq_or_ne s1 s2 with hs | hs
          · rw [if_neg (by simp [hs]), h]
            cases readBytes base p <;> rfl
          · rw [if_pos hs]
  refine ⟨hfalse, ?_⟩
  intro hsome
  cases hl : lookupFS target p with
  | none => simp [hl] at hsome
  | some t => simp [status_spec, hl, hfalse]

theorem status_spec_cases (hash : List Nat → List Nat) (base target : FSTree) (quick_scan is_dir : Bool) (p : List String) :
    status_spec hash base target quick_scan is_dir p = "identical" ∨
      status_spec hash base target quick_scan is_dir p = "modified" ∨
        status_spec hash base target quick_scan is_dir p = "missing" := by
  unfold status_spec
  split_ifs <;> simp

theorem build_rows_status_mem (hash : List Nat → List Nat) (base target : FSTree) (quick_scan : Bool) (l : List (String × TNode)) (pre : String) (cur : List String) :
    ∀ r ∈ Analyzer.build_rows hash base target quick_scan l pre cur,
      r.status = "identical" ∨ r.status = "modified" ∨ r.status = "missing" := by
  induction l, pre, cur using Analyzer.build_rows.induct hash base target quick_scan with
  | case1 pre cur =>
    intro r hr
    simp [Analyzer.build_rows] at hr
  | case2 name t rest pre cur ih1 ih2 =>
    intro r hr
    cases t with
    | file =>
      rw [Analyzer.build_rows.eq_2] at hr
      rcases List.mem_cons.mp hr with hr | hr
      · subst hr
        exact status_spec_cases hash base target quick_scan (isDirT TNode.file) (cur ++ [name])
      · simp only [List.nil_append] at hr
        exact ih2 r hr
    | dir cs =>
      rw [Analyzer.build_rows.eq_3] at hr
      rcases List.mem_cons.mp hr with hr | hr
      · subst hr
        exact status_spec_cases hash base target quick_scan (isDirT (TNode.dir cs)) (cur ++ [name])
      · rcases List.mem_append.mp hr with hr | hr
        · exact ih1 r hr
        · exact ih2 r hr

theorem statusCounts_fold (rs : List Record) (c : StatusCounts)
    (h : ∀ r ∈ rs, r.status = "identical" ∨ r.status = "modified" ∨ r.status = "missing") :
    (rs.foldl (fun c r => bumpCount c r.status) c).identical +
      (rs.foldl (fun c r => bumpCount c r.status) c).modified +
        (rs.foldl (fun c r => bumpCount c r.status) c).missing
      = c.identical + c.modified + c.missing + rs.length := by
  induction rs generalizing c with
  | nil => simp
  | cons r t ih =>
    simp only [List.foldl_cons]
    rw [ih (bumpCount c r.status) fun x hx => h x (by simp [hx])]
    rcases h r (by simp) with hr | hr | hr <;> simp [bumpCount, hr] <;> omega

/-- Claim C5: for every pair of roots, ignore configuration and quick-scan
flag, the three final counters of generate_tree_comparison sum to the
number of emitted records, and each counter, a natural number, is
non-negative. -/
theorem c5_sum_invariant (hash : List Nat → List Nat) (base target : FSTree)
    (patterns exts : List String) (quick : Bool) :
    (Analyzer.generate_tree_comparison hash base target patterns exts quick).2.identical +
        (Analyzer.generate_tree_comparison hash base target patterns exts quick).2.modified +
          (Analyzer.generate_tree_comparison hash base target patterns exts quick).2.missing
        = (Analyzer.generate_tree_comparison hash base target patterns exts quick).1.length ∧
      0 ≤ (Analyzer.generate_tree_comparison hash base target patterns exts quick).2.identical ∧
        0 ≤ (Analyzer.generate_tree_comparison hash base target patterns exts quick).2.modified ∧
          0 ≤ (Analyzer.generate_tree_comparison hash base target patterns exts quick).2.missing := by
  refine ⟨?_, Nat.zero_le _, Nat.zero_le _, Nat.zero_le _⟩
  have h := statusCounts_fold
    (Analyzer.build_rows hash base target quick
      (pySort entryLe (Analyzer.walk_tree (simpleOf patterns) (wildOf patterns) exts [] base)) "" [])
    ⟨0, 0, 0⟩
    (build_rows_status_mem hash base target quick _ "" [])
  simpa using h

theorem build_rows_status_map (hash : List Nat → List Nat) (base target : FSTree) (quick_scan : Bool) (l : List (String × TNode)) (pre : String) (cur : List String) :
    (Analyzer.build_rows hash base target quick_scan l pre cur).map Record.status
      = (visit_nodes l cur).map fun x => status_spec hash base target quick_scan x.2 x.1 := by
  induction l, pre, cur using Analyzer.build_rows.induct hash base target quick_scan with
  | case1 pre cur =>
    rw [Analyzer.build_rows.eq_1, visit_nodes.eq_1]
    simp
  | case2 name t rest pre cur ih1 ih2 =>
    cases t with
    | file =>
      rw [Analyzer.build_rows.eq_2, visit_nodes.eq_2]
      simp only [List.map_cons, List.nil_append]
      congr 1
    | dir cs =>
      rw [Analyzer.build_rows.eq_3, visit_nodes.eq_3]
      simp only [List.map_cons, List.map_append]
      congr 1
      rw [ih2]
      congr 1

/-- Claim C1: the comparison pass of generate_tree_comparison classifies
every retained visited node exactly as claimed: the sequence of emitted
status keys equals the claim-side status rule (missing when the target
path does not exist, identical for directories, identical under quick
scan, otherwise the File Equality Checker verdict) mapped over the
visited nodes in visitation order. -/
theorem c1_status_classification (hash : List Nat → List Nat) (base target : FSTree)
    (patterns exts : List String) (quick : Bool) :
    ((Analyzer.generate_tree_comparison hash base target patterns exts quick).1).map Record.status
      = (visit_nodes (pySort entryLe
            (Analyzer.walk_tree (simpleOf patterns) (wildOf patterns) exts [] base)) []).map
          fun x => status_spec hash base target quick x.2 x.1 :=
  build_rows_status_map hash base target quick _ "" []

theorem quick_status_relation (hash : List Nat → List Nat) (base target : FSTree)
    (d : Bool) (p : List String) :
    (status_spec hash base target false d p = "missing" →
        status_spec hash base target true d p = "missing") ∧
      (status_spec hash base target false d p = "identical" →
          status_spec hash base target true d p = "identical") ∧
        (status_spec hash base target false d p = "modified" →
            status_spec hash base target true d p = "identical") := by
  unfold status_spec
  by_cases h1 : (lookupFS target p).isNone = true
  · simp [h1]
  · by_cases h2 : d = true
    · simp [h1, h2]
    · by_cases h3 : Analyzer.are_files_identical hash base p target p = true
      · simp [h1, h2, h3]
      · simp [h1, h2, h3]

theorem forall2_append_of {α β : Type} {r : α → β → Prop} {l1 u1 : List α} {l2 u2 : List β}
    (h1 : List.Forall₂ r l1 l2) (h2 : List.Forall₂ r u1 u2) :
    List.Forall₂ r (l1 ++ u1) (l2 ++ u2) := by
  induction h1 with
  | nil => simpa using h2
  | cons hr ht ih => exact List.Forall₂.cons hr ih

theorem build_rows_quick_relation (hash : List Nat → List Nat) (base target : FSTree) :
    ∀ (n : Nat) (l : List (String × TNode)) (pre : String) (cur : List String), sizeOf l ≤ n →
      List.Forall₂ (fun a b : Record =>
          a.name = b.name ∧ (a.status = "missing" → b.status = "missing") ∧
            (a.status = "identical" → b.status = "identical") ∧
              (a.status = "modified" → b.status = "identical"))
        (Analyzer.build_rows hash base target false l pre cur)
        (Analyzer.build_rows hash base target true l pre cur) := by
  intro n
  induction n with
  | zero =>
    intro l pre cur hle
    cases l <;> simp at hle
  | succ n ih =>
    intro l pre cur hle
    match l with
    | [] =>
      rw [Analyzer.build_rows.eq_1, Analyzer.build_rows.eq_1]
      exact List.Forall₂.nil
    | (name, TNode.file) :: rest =>
      rw [Analyzer.build_rows.eq_2, Analyzer.build_rows.eq_2]
      simp only [List.nil_append]
      refine List.Forall₂.cons ?_ ?_
      · have q := quick_status_relation hash base target (isDirT TNode.file) (cur ++ [name])
        exact ⟨rfl, q.1, q.2.1, q.2.2⟩
      · refine ih rest pre cur ?_
        simp at hle
        omega
    | (name, TNode.dir cs) :: rest =>
      rw [Analyzer.build_rows.eq_3, Analyzer.build_rows.eq_3]
      refine List.Forall₂.cons ?_ (forall2_append_of ?_ ?_)
      · have q := quick_status_relation hash base target (isDirT (TNode.dir cs)) (cur ++ [name])
        exact ⟨rfl, q.1, q.2.1, q.2.2⟩
      · refine ih (pySort entryLe cs) _ (cur ++ [name]) ?_
        rw [sizeOf_pySort]
        simp at hle
        omega
      · refine ih rest pre cur ?_
        simp at hle
        omega

/-- Claim C6: on the same trees and configuration, the record sequences of
the deep scan and of the quick scan align node for node (same names, in
the same order), and pointwise a missing node stays missing, an identical
node stays identical, and a modified node becomes identical; quick scan
never turns an identical or missing result into modified. -/
theorem c6_quick_scan_monotonicity (hash : List Nat → List Nat) (base target : FSTree)
    (patterns exts : List String) :
    List.Forall₂ (fun a b : Record =>
        a.name = b.name ∧ (a.status = "missing" → b.status = "missing") ∧
          (a.status = "identical" → b.status = "identical") ∧
            (a.status = "modified" → b.status = "identical"))
      (Analyzer.generate_tree_comparison hash base target patterns exts false).1
      (Analyzer.generate_tree_comparison hash base target patterns exts true).1 :=
  build_rows_quick_relation hash base target
    (sizeOf (pySort entryLe (Analyzer.walk_tree (simpleOf patterns) (wildOf patterns) exts [] base)))
    (pySort entryLe (Analyzer.walk_tree (simpleOf patterns) (wildOf patterns) exts [] base))
    "" [] (Nat.le_refl _)

theorem charListLe_total : ∀ l1 l2 : List Char, charListLe l1 l2 = true ∨ charListLe l2 l1 = true := by
  intro l1
  induction l1 with
  | nil => intro l2; left; rfl
  | cons a as ih =>
    intro l2
    cases l2 with
    | nil => right; rfl
    | cons b bs =>
      by_cases hab : a < b
      · left
        simp [charListLe, hab]
      · by_cases hba : b < a
        · right
          simp [charListLe, hba]
        · rcases ih bs with h | h
          · left
            simp [charListLe, hab, hba, h]
          · right
            simp [charListLe, hba, hab, h]

theorem charListLe_trans : ∀ l1 l2 l3 : List Char,
    charListLe l1 l2 = true → charListLe l2 l3 = true → charListLe l1 l3 = true := by
  intro l1
  induction l1 with
  | nil => intro l2 l3 _ _; rfl
  | cons a as ih =>
    intro l2 l3 h12 h23
    cases l2 with
    | nil => simp [charListLe] at h12
    | cons b bs =>
      cases l3 with
      | nil => simp [charListLe] at h23
      | cons c cs =>
        by_cases hab : a < b
        · by_cases hbc : b < c
          · have hac : a < c := lt_trans hab hbc
            simp [charListLe, hac]
          · by_cases hcb : c < b
            · simp [charListLe, hbc, hcb] at h23
            · have hbc2 : b = c := le_antisymm (not_lt.mp hcb) (not_lt.mp hbc)
              have hac : a < c := hbc2 ▸ hab
              simp [charListLe, hac]
        · by_cases hba : b < a
          · simp [charListLe, hab, hba] at h12
          · have hab2 : a = b := le_antisymm (not_lt.mp hba) (not_lt.mp hab)
            simp [charListLe, hab, hba] at h12
            by_cases hbc : b < c
            · have hac : a < c := hab2 ▸ hbc
              simp [charListLe, hac]
            · by_cases hcb : c < b
              · simp [charListLe, hbc, hcb] at h23
              · simp [charListLe, hbc, hcb] at h23
                have hac1 : ¬ a < c := hab2 ▸ hbc
                have hca1 : ¬ c < a := hab2 ▸ hcb
                simp [charListLe, hac1, hca1]
                exact ih bs cs h12 h23

theorem entryLe_total (a b : String × TNode) : entryLe a b = true ∨ entryLe b a = true := by
  unfold entryLe
  by_cases h : isFileT a.2 = isFileT b.2
  · rw [if_pos h, if_pos h.symm]
    exact charListLe_total _ _
  · rw [if_neg h, if_neg fun e => h e.symm]
    cases hb : isFileT b.2
    · cases ha : isFileT a.2
      · exact absurd (ha.trans hb.symm) h
      · right
        rfl
    · left
      rfl

theorem entryLe_trans (a b c : String × TNode)
    (h1 : entryLe a b = true) (h2 : entryLe b c = true) : entryLe a c = true := by
  unfold entryLe at h1 h2 ⊢
  by_cases hab : isFileT a.2 = isFileT b.2 <;> by_cases hbc : isFileT b.2 = isFileT c.2
  · rw [if_pos hab] at h1
    rw [if_pos hbc] at h2
    rw [if_pos (hab.trans hbc)]
    exact charListLe_trans _ _ _ h1 h2
  · rw [if_neg hbc] at h2
    have hac : ¬ isFileT a.2 = isFileT c.2 := by
      rw [hab]
      exact hbc
    rw [if_neg hac]
    exact h2
  · rw [if_neg hab] at h1
    by_cases hac : isFileT a.2 = isFileT c.2
    · exact absurd (hac.trans hbc.symm) hab
    · rw [if_neg hac, ← hbc]
      exact h1
  · rw [if_neg hab] at h1
    rw [if_neg hbc] at h2
    exact absurd (h1.trans h2.symm) hbc

theorem perm_pyInsert (le : α → α → Bool) (a : α) (l : List α) :
    (pyInsert le a l).Perm (a :: l) := by
  induction l with
  | nil => exact List.Perm.refl _
  | cons b t ih =>
    show (if le b a then b :: pyInsert le a t else a :: b :: t).Perm (a :: b :: t)
    by_cases h : le b a = true
    · rw [if_pos h]
      exact (ih.cons b).trans (List.Perm.swap a b t)
    · rw [if_neg h]

theorem perm_pySort_aux (le : α → α → Bool) :
    ∀ (l acc : List α), (List.foldl (fun acc x => pyInsert le x acc) acc l).Perm (l ++ acc) := by
  intro l
  induction l with
  | nil =>
    intro acc
    simp
  | cons x t ih =>
    intro acc
    simp only [List.foldl_cons, List.cons_append]
    have h1 := ih (pyInsert le x acc)
    have h2 : (t ++ pyInsert le x acc).Perm (t ++ (x :: acc)) :=
      List.Perm.append_left t (perm_pyInsert le x acc)
    exact h1.trans (h2.trans List.perm_middle)

theorem perm_pySort (le : α → α → Bool) (l : List α) : (pySort le l).Perm l := by
  have h := perm_pySort_aux le l []
  simpa [pySort] using h

theorem pairwise_pyInsert (le : α → α → Bool)
    (htot : ∀ a b, le a b = true ∨ le b a = true)
    (htrans : ∀ a b c, le a b = true → le b c = true → le a c = true)
    (a : α) (l : List α) (h : l.Pairwise fun x y => le x y = true) :
    (pyInsert le a l).Pairwise fun x y => le x y = true := by
  induction l with
  | nil => simp [pyInsert]
  | cons b t ih =>
    rcases List.pairwise_cons.mp h with ⟨hb, ht⟩
    show (if le b a then b :: pyInsert le a t else a :: b :: t).Pairwise _
    by_cases hba : le b a = true
    · rw [if_pos hba]
      refine List.pairwise_cons.mpr ⟨?_, ih ht⟩
      intro x hx
      rcases List.mem_cons.mp ((perm_pyInsert le a t).mem_iff.mp hx) with hx | hx
      · subst hx
        exact hba
      · exact hb x hx
    · rw [if_neg hba]
      refine List.pairwise_cons.mpr ⟨?_, h⟩
      intro x hx
      have hab : le a b = true := by
        rcases htot a b with h2 | h2
        · exact h2
        · exact absurd h2 hba
      rcases List.mem_cons.mp hx with hx | hx
      · subst hx
        exact hab
      · exact htrans a b x hab (hb x hx)

theorem pairwise_pySort (le : α → α → Bool)
    (htot : ∀ a b, le a b = true ∨ le b a = true)
    (htrans : ∀ a b c, le a b = true → le b c = true → le a c = true)
    (l : List α) : (pySort le l).Pairwise fun x y => le x y = true := by
  suffices h : ∀ acc : List α, (acc.Pairwise fun x y => le x y = true) →
      ((List.foldl (fun acc x => pyInsert le x acc) acc l).Pairwise fun x y => le x y = true) from
    h [] List.Pairwise.nil
  induction l with
  | nil =>
    intro acc hacc
    simpa using hacc
  | cons x t ih =>
    intro acc hacc
    simp only [List.foldl_cons]
    exact ih (pyInsert le x acc) (pairwise_pyInsert le htot htrans x acc hacc)

theorem entryLe_implies_spec (a b : String × TNode) (h : entryLe a b = true) :
    specSiblingLe a b := by
  unfold entryLe at h
  unfold specSiblingLe
  by_cases he : isFileT a.2 = isFileT b.2
  · rw [if_pos he] at h
    exact Or.inr ⟨he, h⟩
  · rw [if_neg he] at h
    refine Or.inl ⟨?_, h⟩
    cases ha : isFileT a.2
    · rfl
    · exact absurd (ha.trans h.symm) he

theorem countNodes_cons (x : String × TNode) (l : List (String × TNode)) :
    countNodes (x :: l) = countNodes [x] + countNodes l := by
  rcases x with ⟨n, t⟩
  cases t <;> simp [countNodes]

theorem countNodes_perm {l1 l2 : List (String × TNode)} (h : l1.Perm l2) :
    countNodes l1 = countNodes l2 := by
  induction h with
  | nil => rfl
  | cons x h ih =>
    rename_i la lb
    rw [countNodes_cons x la, countNodes_cons x lb, ih]
  | swap x y l =>
    rw [countNodes_cons y (x :: l), countNodes_cons x l,
      countNodes_cons x (y :: l), countNodes_cons y l]
    omega
  | trans _ _ ih1 ih2 => rw [ih1, ih2]

theorem build_rows_length (hash : List Nat → List Nat) (base target : FSTree) (quick : Bool) :
    ∀ (l : List (String × TNode)) (pre : String) (cur : List String),
      (Analyzer.build_rows hash base target quick l pre cur).length = countNodes l := by
  intro l pre cur
  induction l, pre, cur using Analyzer.build_rows.induct hash base target quick with
  | case1 pre cur =>
    rw [Analyzer.build_rows.eq_1]
    simp [countNodes]
  | case2 name t rest pre cur ih1 ih2 =>
    cases t with
    | file =>
      rw [Analyzer.build_rows.eq_2]
      simp only [List.length_cons, List.nil_append]
      rw [ih2]
      simp [countNodes]
      try omega
    | dir cs =>
      have ih1a : (Analyzer.build_rows hash base target quick (pySort entryLe cs)
          (pre ++ if rest.isEmpty = true then "    " else "│   ") (cur ++ [name])).length
            = countNodes (pySort entryLe cs) := ih1
      rw [Analyzer.build_rows.eq_3]
      simp only [List.length_cons, List.length_append]
      rw [ih1a, ih2, countNodes_perm (perm_pySort entryLe cs)]
      simp [countNodes]
      try omega

theorem build_rows_block_eq (hash : List Nat → List Nat) (base target : FSTree) (quick : Bool)
    (name : String) (t : TNode) (rest : List (String × TNode)) (pre : String) (cur : List String) :
    Analyzer.build_rows hash base target quick ((name, t) :: rest) pre cur
      = nodeBlock hash base target quick name t rest.isEmpty pre cur ++
          Analyzer.build_rows hash base target quick rest pre cur := by
  cases t with
  | file =>
    rw [Analyzer.build_rows.eq_2]
    rfl
  | dir cs =>
    rw [Analyzer.build_rows.eq_3]
    rfl

/-- Claim C9: (a) the sorted sibling list of every dict level is ordered
as the presentation contract states — directories strictly before files,
case-insensitive name order inside each group; (b) the comparison pass
emits exactly one record per node of the visited structure; (c) the
output of a level is the contiguous block of its first sibling (own
record, then the whole subtree) followed by the output of the remaining
siblings, so each subtree occupies one contiguous nested run of the
record list, in visitation order. -/
theorem c9_ordering_contract :
    (∀ l : List (String × TNode), (pySort entryLe l).Pairwise specSiblingLe) ∧
      (∀ (hash : List Nat → List Nat) (base target : FSTree) (quick : Bool)
          (l : List (String × TNode)) (pre : String) (cur : List String),
        (Analyzer.build_rows hash base target quick l pre cur).length = countNodes l) ∧
      (∀ (hash : List Nat → List Nat) (base target : FSTree) (quick : Bool)
          (name : String) (t : TNode) (rest : List (String × TNode)) (pre : String)
          (cur : List String),
        Analyzer.build_rows hash base target quick ((name, t) :: rest) pre cur
          = nodeBlock hash base target quick name t rest.isEmpty pre cur ++
              Analyzer.build_rows hash base target quick rest pre cur) := by
  refine ⟨?_, build_rows_length, build_rows_block_eq⟩
  intro l
  exact (pairwise_pySort entryLe entryLe_total entryLe_trans l).imp
    fun h => entryLe_implies_spec _ _ h

theorem visit_nodes_mem (l : List (String × TNode)) (cur : List String) :
    ∀ x ∈ visit_nodes l cur,
      ∃ n t, (n, t) ∈ l ∧
        (x = (cur ++ [n], isDirT t) ∨
          ∃ cs, t = TNode.dir cs ∧ x ∈ visit_nodes (pySort entryLe cs) (cur ++ [n])) := by
  induction l, cur using visit_nodes.induct with
  | case1 cur =>
    intro x hx
    rw [visit_nodes.eq_1] at hx
    simp at hx
  | case2 name t rest cur ih1 ih2 =>
    intro x hx
    cases t with
    | file =>
      rw [visit_nodes.eq_2] at hx
      rcases List.mem_cons.mp hx with hx | hx
      · exact ⟨name, TNode.file, List.mem_cons_self _ _, Or.inl hx⟩
      · simp only [List.nil_append] at hx
        rcases ih2 x hx with ⟨n, t2, hmem, hrest⟩
        exact ⟨n, t2, List.mem_cons_of_mem _ hmem, hrest⟩
    | dir cs =>
      rw [visit_nodes.eq_3] at hx
      rcases List.mem_cons.mp hx with hx | hx
      · exact ⟨name, TNode.dir cs, List.mem_cons_self _ _, Or.inl hx⟩
      · rcases List.mem_append.mp hx with hx | hx
        · exact ⟨name, TNode.dir cs, List.mem_cons_self _ _, Or.inr ⟨cs, rfl, hx⟩⟩
        · rcases ih2 x hx with ⟨n, t2, hmem, hrest⟩
          exact ⟨n, t2, List.mem_cons_of_mem _ hmem, hrest⟩

theorem visit_nodes_length : ∀ (l : List (String × TNode)) (cur : List String),
    (visit_nodes l cur).length = countNodes l := by
  intro l cur
  induction l, cur using visit_nodes.induct with
  | case1 cur =>
    rw [visit_nodes.eq_1]
    simp [countNodes]
  | case2 name t rest cur ih1 ih2 =>
    cases t with
    | file =>
      rw [visit_nodes.eq_2]
      simp only [List.length_cons, List.nil_append]
      rw [ih2]
      simp [countNodes]
      try omega
    | dir cs =>
      have ih1a : (visit_nodes (pySort entryLe cs) (cur ++ [name])).length
          = countNodes (pySort entryLe cs) := ih1
      rw [visit_nodes.eq_3]
      simp only [List.length_cons, List.length_append]
      rw [ih1a, ih2, countNodes_perm (perm_pySort entryLe cs)]
      simp [countNodes]
      try omega

theorem prefix_snoc_cases {rel q : List String} {n : String}
    (h1 : rel <+: q) (h2 : q <+: rel ++ [n]) : q = rel ∨ q = rel ++ [n] := by
  rcases h1 with ⟨u, hu⟩
  rcases h2 with ⟨v, hv⟩
  subst hu
  rw [List.append_assoc] at hv
  have huv : u ++ v = [n] := List.append_cancel_left hv
  cases u with
  | nil =>
    left
    simp
  | cons a u2 =>
    rw [List.cons_append] at huv
    injection huv with ha htail
    have hu2 : u2 = [] := (List.append_eq_nil.mp htail).1
    subst ha
    subst hu2
    right
    rfl

theorem walk_paths_not_ignored (simple wild exts : List String) :
    ∀ (rel : List String) (t : FSTree) (x : List String × Bool),
      x ∈ visit_nodes (pySort entryLe (Analyzer.walk_tree simple wild exts rel t)) rel →
        (∃ suf, suf ≠ [] ∧ x.1 = rel ++ suf) ∧
          ∀ q, rel <+: q → q <+: x.1 → q ≠ rel →
            Analyzer.is_ignored (joinSegs q) simple wild exts = false := by
  intro rel t
  induction rel, t using Analyzer.walk_tree.induct simple wild exts with
  | case1 rel d =>
    intro x hx
    rw [Analyzer.walk_tree.eq_1] at hx
    simp [pySort, visit_nodes.eq_1] at hx
  | case2 rel cs ih =>
    intro x hx
    rcases visit_nodes_mem _ _ x hx with ⟨n, tn, hmem, hcase⟩
    have hmem2 : (n, tn) ∈ Analyzer.walk_tree simple wild exts rel (FSTree.dir cs) :=
      (perm_pySort entryLe _).mem_iff.mp hmem
    rw [Analyzer.walk_tree.eq_2] at hmem2
    have hkept : Analyzer.is_ignored (joinSegs (rel ++ [n])) simple wild exts = false ∧
        (tn = TNode.file ∨
          ∃ c, (n, c) ∈ cs ∧ tn = TNode.dir (Analyzer.walk_tree simple wild exts (rel ++ [n]) c)) := by
      rcases List.mem_append.mp hmem2 with hd | hf
      · rcases List.mem_filterMap.mp hd with ⟨⟨⟨m, c⟩, hmc⟩, _hatt, heq⟩
        dsimp only at heq
        by_cases hcond : (isDirFS c &&
            !(Analyzer.is_ignored (joinSegs (rel ++ [m])) simple wild exts)) = true
        · rw [if_pos hcond] at heq
          have hpair := Option.some.inj heq
          have hn : m = n := congrArg Prod.fst hpair
          have htn : TNode.dir (Analyzer.walk_tree simple wild exts (rel ++ [m]) c) = tn :=
            congrArg Prod.snd hpair
          rcases (Bool.and_eq_true _ _).mp hcond with ⟨_, hnig⟩
          have hig : Analyzer.is_ignored (joinSegs (rel ++ [m])) simple wild exts = false := by
            simpa using hnig
          rw [hn] at hig htn hmc
          exact ⟨hig, Or.inr ⟨c, hmc, htn.symm⟩⟩
        · rw [if_neg hcond] at heq
          cases heq
      · rcases List.mem_filterMap.mp hf with ⟨e, _hemem, heq⟩
        by_cases hcond : ((!(isDirFS e.2)) &&
            !(Analyzer.is_ignored (joinSegs (rel ++ [e.1])) simple wild exts)) = true
        · rw [if_pos hcond] at heq
          have hpair := Option.some.inj heq
          have hn : e.1 = n := congrArg Prod.fst hpair
          have htn : TNode.file = tn := congrArg Prod.snd hpair
          rcases (Bool.and_eq_true _ _).mp hcond with ⟨_, hnig⟩
          have hig : Analyzer.is_ignored (joinSegs (rel ++ [e.1])) simple wild exts = false := by
            simpa using hnig
          rw [hn] at hig
          exact ⟨hig, Or.inl htn.symm⟩
        · rw [if_neg hcond] at heq
          cases heq
    rcases hcase with hx1 | ⟨cs2, htn2, hxin⟩
    · refine ⟨⟨[n], by simp, by rw [hx1]⟩, ?_⟩
      intro q hrq hqx hqne
      have hxfst : x.1 = rel ++ [n] := by rw [hx1]
      rw [hxfst] at hqx
      rcases prefix_snoc_cases hrq hqx with hq | hq
      · exact absurd hq hqne
      · rw [hq]
        exact hkept.1
    · rcases hkept.2 with hfile | ⟨c, hcmem, hdir⟩
      · rw [htn2] at hfile
        cases hfile
      · have hcs2 : cs2 = Analyzer.walk_tree simple wild exts (rel ++ [n]) c := by
          rw [htn2] at hdir
          exact TNode.dir.inj hdir
        have hxin2 : x ∈ visit_nodes
            (pySort entryLe (Analyzer.walk_tree simple wild exts (rel ++ [n]) c)) (rel ++ [n]) := by
          rw [← hcs2]
          exact hxin
        rcases ih n c hcmem x hxin2 with ⟨⟨suf2, hsuf2ne, hx1⟩, hqprop⟩
        constructor
        · refine ⟨n :: suf2, by simp, ?_⟩
          rw [hx1, List.append_assoc]
          rfl
        · intro q hrq hqx hqne
          have hrelnx : rel ++ [n] <+: x.1 := by
            rw [hx1]
            exact List.prefix_append _ _
          rcases List.prefix_or_prefix_of_prefix hqx hrelnx with hq1 | hq1
          · rcases prefix_snoc_cases hrq hq1 with hq2 | hq2
            · exact absurd hq2 hqne
            · rw [hq2]
              exact hkept.1
          · by_cases hqeq : q = rel ++ [n]
            · rw [hqeq]
              exact hkept.1
            · exact hqprop q hq1 hqx hqeq

/-- Claim C3: if the relative path of a directory inside the base tree
(a nonempty segment path) satisfies the Ignore Matcher under the
partitioned configuration, then no visited node of the comparison pass —
hence no ComparisonRecord, the records being in one-to-one correspondence
with the visited nodes (second conjunct), and no StatusCounts increment,
the counters being the fold of the records — lies at that path or below
it. -/
theorem c3_pruning_invariant (hash : List Nat → List Nat) (base target : FSTree)
    (patterns exts : List String) (quick : Bool) (q : List String)
    (hq : q ≠ [])
    (hig : Analyzer.is_ignored (joinSegs q) (simpleOf patterns) (wildOf patterns) exts = true) :
    (∀ x ∈ visit_nodes (pySort entryLe
        (Analyzer.walk_tree (simpleOf patterns) (wildOf patterns) exts [] base)) [],
      ¬ (q <+: x.1)) ∧
      (Analyzer.generate_tree_comparison hash base target patterns exts quick).1.length
        = (visit_nodes (pySort entryLe
            (Analyzer.walk_tree (simpleOf patterns) (wildOf patterns) exts [] base)) []).length := by
  constructor
  · intro x hx hpre
    have h := walk_paths_not_ignored (simpleOf patterns) (wildOf patterns) exts [] base x hx
    have h2 := h.2 q List.nil_prefix hpre hq
    rw [hig] at h2
    cases h2
  · have e1 : (Analyzer.generate_tree_comparison hash base target patterns exts quick).1.length
        = countNodes (pySort entryLe
            (Analyzer.walk_tree (simpleOf patterns) (wildOf patterns) exts [] base)) :=
      build_rows_length hash base target quick _ "" []
    have e2 := visit_nodes_length (pySort entryLe
      (Analyzer.walk_tree (simpleOf patterns) (wildOf patterns) exts [] base)) []
    exact e1.trans e2.symm

theorem c3_pruning_invariant_witness :
    (["node_modules"] : List String) ≠ [] ∧
      Analyzer.is_ignored (joinSegs ["node_modules"])
          (simpleOf ["node_modules"]) (wildOf ["node_modules"]) [] = true ∧
      ((∀ x ∈ visit_nodes (pySort entryLe
          (Analyzer.walk_tree (simpleOf ["node_modules"]) (wildOf ["node_modules"]) [] []
            (FSTree.dir [("node_modules", FSTree.dir [("pkg.js", FSTree.file ⟨1, [1], true⟩)]),
              ("a.txt", FSTree.file ⟨1, [2], true⟩)]))) [],
        ¬ (["node_modules"] <+: x.1)) ∧
        (Analyzer.generate_tree_comparison (fun l => l)
            (FSTree.dir [("node_modules", FSTree.dir [("pkg.js", FSTree.file ⟨1, [1], true⟩)]),
              ("a.txt", FSTree.file ⟨1, [2], true⟩)])
            (FSTree.dir []) ["node_modules"] [] false).1.length
          = (visit_nodes (pySort entryLe
              (Analyzer.walk_tree (simpleOf ["node_modules"]) (wildOf ["node_modules"]) [] []
                (FSTree.dir [("node_modules", FSTree.dir [("pkg.js", FSTree.file ⟨1, [1], true⟩)]),
                  ("a.txt", FSTree.file ⟨1, [2], true⟩)]))) []).length) :=
  ⟨by decide, by decide,
    c3_pruning_invariant (fun l => l)
      (FSTree.dir [("node_modules", FSTree.dir [("pkg.js", FSTree.file ⟨1, [1], true⟩)]),
        ("a.txt", FSTree.file ⟨1, [2], true⟩)])
      (FSTree.dir []) ["node_modules"] [] false ["node_modules"] (by decide) (by decide)⟩

theorem c8_unreadable_degrades_witness :
    readBytes (FSTree.dir [("a", FSTree.file ⟨1, [5], false⟩)]) ["a"] = Except.error () ∧
      (lookupFS (FSTree.dir [("a", FSTree.file ⟨1, [5], false⟩)]) ["a"]).isSome = true ∧
      Analyzer.are_files_identical (fun l => l)
          (FSTree.dir [("a", FSTree.file ⟨1, [5], true⟩)]) ["a"]
          (FSTree.dir [("a", FSTree.file ⟨1, [5], false⟩)]) ["a"] = false ∧
      status_spec (fun l => l)
          (FSTree.dir [("a", FSTree.file ⟨1, [5], true⟩)])
          (FSTree.dir [("a", FSTree.file ⟨1, [5], false⟩)]) false false ["a"] = "modified" :=
  ⟨rfl, rfl,
    (c8_unreadable_degrades (fun l => l)
      (FSTree.dir [("a", FSTree.file ⟨1, [5], true⟩)])
      (FSTree.dir [("a", FSTree.file ⟨1, [5], false⟩)]) ["a"]
      (Or.inr (Or.inr (Or.inr rfl)))).1,
    (c8_unreadable_degrades (fun l => l)
      (FSTree.dir [("a", FSTree.file ⟨1, [5], true⟩)])
      (FSTree.dir [("a", FSTree.file ⟨1, [5], false⟩)]) ["a"]
      (Or.inr (Or.inr (Or.inr rfl)))).2 rfl⟩
